import Mathlib

/-!
Verification of the row-boundary detection and fixed-arity field extraction
engine of the alfred email-inbox repository.

The embedding models, character by character, the Python functions
`clean_and_load_emails` (Data_clean/data_loader.py) and
`clean_email_record` / `load_emails_from_csv` (src/utils.py).
Strings are modelled as `List Char`; Python byte strings as `List Nat`.
The Python codec primitive `bytes.decode(enc)` (standard library, not part
of this repository) is modelled as an explicit function parameter
`decode : String → List Nat → Option (List Char)`; the impure clock read
`datetime.utcnow().isoformat()` in `clean_email_record` is modelled as an
explicit parameter `now : List Char`.
-/

namespace Alfred

/-- Python whitespace for `str.strip()` (ASCII subset; the inputs in this
development contain no exotic Unicode whitespace). -/
def isPySpace (c : Char) : Bool :=
  c = ' ' || c = '\t' || c = '\n' || c = '\r' || c = '\x0B' || c = '\x0C'

/-- Python `s.strip()`: drop leading and trailing whitespace. -/
def pyStrip (cs : List Char) : List Char :=
  ((cs.dropWhile isPySpace).reverse.dropWhile isPySpace).reverse

/-- Python `s.replace(p1 + p2, sub)` for a two-character pattern:
left-to-right, non-overlapping replacement. -/
def pyReplace2 (p1 p2 : Char) (sub : List Char) : List Char → List Char
  | [] => []
  | [c] => [c]
  | c1 :: c2 :: cs =>
    if c1 = p1 ∧ c2 = p2 then sub ++ pyReplace2 p1 p2 sub cs
    else c1 :: pyReplace2 p1 p2 sub (c2 :: cs)

example : pyStrip "  ab ".data = "ab".data := by decide

example : pyReplace2 '"' '"' ['"'] "a\"\"b".data = "a\"b".data := by decide

/-- Python `s.split(sep, n)`: split on `sep` from the left, at most `n`
splits (so at most `n + 1` parts). -/
def splitFirst (sep : Char) : List Char → Option (List Char × List Char)
  | [] => none
  | c :: cs =>
    if c = sep then some ([], cs)
    else
      match splitFirst sep cs with
      | none => none
      | some (p, q) => some (c :: p, q)

def splitN (sep : Char) : Nat → List Char → List (List Char)
  | 0, cs => [cs]
  | n + 1, cs =>
    match splitFirst sep cs with
    | none => [cs]
    | some (p, q) => p :: splitN sep n q

/-- Python `s.rsplit(sep, n)`: split on `sep` from the right, at most `n`
splits. -/
def rsplitN (sep : Char) (n : Nat) (cs : List Char) : List (List Char) :=
  ((splitN sep n cs.reverse).map List.reverse).reverse

example : splitN ',' 3 "a,b,c,d,e".data =
    ["a".data, "b".data, "c".data, "d,e".data] := by decide

example : rsplitN ',' 3 "a,b,c,d,e".data =
    ["a,b".data, "c".data, "d".data, "e".data] := by decide

example : rsplitN ',' 3 "a,b".data = ["a".data, "b".data] := by decide

/-!
## Row boundary segmenter

`data_loader.py` splits the decoded document with the regular expression
`\n"(\d+),` via `re.split`, keeping the captured digit group.  A match at a
position requires: a newline, a double quote, a maximal run of one or more
decimal digits, then a comma.  `matchBoundary` decides a match anchored at
the head of the list; `reSplit` performs the left-to-right non-overlapping
scan of `re.split`, returning the text before the first match (the header)
and the list of (captured digits, following text) pairs.
-/

def matchBoundary : List Char → Option (List Char × List Char)
  | c1 :: c2 :: u =>
    if c1 = '\n' ∧ c2 = '"' ∧ u.takeWhile Char.isDigit ≠ [] ∧
        (u.dropWhile Char.isDigit).head? = some ',' then
      some (u.takeWhile Char.isDigit, (u.dropWhile Char.isDigit).tail)
    else none
  | _ => none

example : matchBoundary "\n\"12,rest".data = some ("12".data, "rest".data) := by decide
example : matchBoundary "\n\"12x,rest".data = none := by decide
example : matchBoundary "\n\",rest".data = none := by decide

/-- The `re.split` scan, fueled by a step count so that the recursion is
structural; `reSplit` runs it with fuel equal to the document length, which
is always enough (each step consumes at least one character). -/
def reSplitFuel : Nat → List Char → List Char × List (List Char × List Char)
  | 0, cs => (cs, [])
  | _ + 1, [] => ([], [])
  | n + 1, c :: cs =>
    match matchBoundary (c :: cs) with
    | some (ds, rest) =>
      let r := reSplitFuel n rest
      ([], (ds, r.1) :: r.2)
    | none =>
      let r := reSplitFuel n cs
      (c :: r.1, r.2)

def reSplit (cs : List Char) : List Char × List (List Char × List Char) :=
  reSplitFuel cs.length cs

example : reSplit "header\n\"1,abc\n\"2,def".data =
    ("header".data, [("1".data, "abc".data), ("2".data, "def".data)]) := by decide

/-- No position of `cs`, read as standalone text, starts a boundary
match. -/
def boundaryFreeB : List Char → Bool
  | [] => true
  | c :: cs => (matchBoundary (c :: cs)).isNone && boundaryFreeB cs

/-- What may follow a piece of well-formed document: either the end of the
document or the newline that opens the next row. -/
def nlHead (rest : List Char) : Prop := rest = [] ∨ rest.head? = some '\n'

/-- A well-formed row of the input format: newline, double quote, the
numeric identifier, comma, then the row remainder. -/
def mkRow (p : List Char × List Char) : List Char :=
  '\n' :: '"' :: (p.1 ++ ',' :: p.2)

/-- The document text of a list of (identifier, remainder) rows. -/
def rowsText (rows : List (List Char × List Char)) : List Char :=
  (rows.map mkRow).flatten

/-- Well-formedness of one row: a non-empty all-digit identifier and a
remainder that contains no boundary pattern of its own. -/
def goodRow (p : List Char × List Char) : Prop :=
  p.1 ≠ [] ∧ (∀ c ∈ p.1, c.isDigit = true) ∧ boundaryFreeB p.2 = true

instance (p : List Char × List Char) : Decidable (goodRow p) := by
  unfold goodRow; infer_instance

/-!
## Fixed-arity field extractor (`clean_and_load_emails`, per-row part)
-/

/-- The raw record built by `clean_and_load_emails`: the Python dict with
eight string values (`has_attachment` still the raw string here). -/
structure RawRecord where
  email_id : List Char
  sender_email : List Char
  sender_name : List Char
  subject : List Char
  body : List Char
  timestamp : List Char
  has_attachment : List Char
  thread_id : List Char
deriving DecidableEq, Repr

/-- Diagnostics printed by the loader (the final success-count summary
print is not an error diagnostic and is not modelled). -/
inductive Diag where
  | decodeFailure : Diag
  | malformedRight : List Char → Diag
  | malformedLeft : List Char → Diag
deriving DecidableEq, Repr

/-- The row identifier named by a diagnostic message, if any. -/
def Diag.rowId : Diag → Option (List Char)
  | .decodeFailure => none
  | .malformedRight i => some i
  | .malformedLeft i => some i

/-- Body cleaning step 4 of `clean_and_load_emails`:
`body = body_raw.replace('""', '"')` followed by stripping one layer of
surrounding quotes when the result both starts and ends with `"`. -/
def wrappedInQuotes (cs : List Char) : Prop :=
  cs.head? = some '"' ∧ cs.getLast? = some '"'

instance (cs : List Char) : Decidable (wrappedInQuotes cs) := by
  unfold wrappedInQuotes; infer_instance

def normalizeBody (body_raw : List Char) : List Char :=
  let body := pyReplace2 '"' '"' ['"'] body_raw
  if wrappedInQuotes body then (body.drop 1).dropLast else body

/-- Cleaning of the segment before splitting:
`rest_of_row.strip()` then removal of a trailing `"` if present. -/
def cleanSegment (rest0 : List Char) : List Char :=
  let r := pyStrip rest0
  if r.getLast? = some '"' then r.dropLast else r

/-- One iteration of the parsing loop of `clean_and_load_emails`:
right-split into at most 4 parts, then left-split of the middle chunk into
at most 4 parts, then body normalization; fewer than 4 parts on either
split makes the row malformed (diagnostic naming the captured id). -/
def processRow (email_id rest0 : List Char) : Except Diag RawRecord :=
  let rest := cleanSegment rest0
  let right_parts := rsplitN ',' 3 rest
  if h : right_parts.length < 4 then .error (Diag.malformedRight email_id)
  else
    let middle_chunk := right_parts.get ⟨0, by omega⟩
    let timestamp := right_parts.get ⟨1, by omega⟩
    let has_attachment := right_parts.get ⟨2, by omega⟩
    let thread_id := right_parts.get ⟨3, by omega⟩
    let left_parts := splitN ',' 3 middle_chunk
    if h2 : left_parts.length < 4 then .error (Diag.malformedLeft email_id)
    else
      let sender_email := left_parts.get ⟨0, by omega⟩
      let sender_name := left_parts.get ⟨1, by omega⟩
      let subject := left_parts.get ⟨2, by omega⟩
      let body_raw := left_parts.get ⟨3, by omega⟩
      .ok { email_id := email_id, sender_email := sender_email,
            sender_name := sender_name, subject := subject,
            body := normalizeBody body_raw, timestamp := timestamp,
            has_attachment := has_attachment, thread_id := thread_id }

/-- The loop of `clean_and_load_emails` over the (id, segment) pairs:
skipped rows contribute a diagnostic, parsed rows a record, both in
document order. -/
def processSegs : List (List Char × List Char) → List Diag × List RawRecord
  | [] => ([], [])
  | (i, rest) :: segs =>
    let r := processSegs segs
    match processRow i rest with
    | .ok rec => (r.1, rec :: r.2)
    | .error d => (d :: r.1, r.2)

/-- Segmentation plus per-row extraction on the decoded document.  The
header `(reSplit content).1` is dropped, exactly as the loop in
`clean_and_load_emails` skips `parts[0]`. -/
def parseEmails (content : List Char) : List Diag × List RawRecord :=
  processSegs (reSplit content).2

/-!
## Document loader (`clean_and_load_emails`, decoding part)

The function returns a list in every code path: the decode-failure branch
prints a diagnostic and executes `return []`, and the outer
`try`/`except` catches every exception and returns `[]`, so no exception
ever propagates to the caller.  `LoadOutcome.raised` models an exception
escaping `clean_and_load_emails`; it is never produced.
-/

inductive LoadOutcome where
  | returned : List Diag → List RawRecord → LoadOutcome
  | raised : LoadOutcome
deriving DecidableEq, Repr

/-- The candidate encodings tried in order (line 14 of data_loader.py). -/
def candidateEncodings : List String := ["utf-8", "cp1252", "latin1"]

/-- The decoding loop: first encoding that decodes wins. -/
def firstDecode (decode : String → List Nat → Option (List Char)) :
    List String → List Nat → Option (List Char)
  | [], _ => none
  | enc :: encs, bs =>
    match decode enc bs with
    | some content => some content
    | none => firstDecode decode encs bs

/-- `clean_and_load_emails`, with the Python codec primitive passed in as
`decode`. -/
def clean_and_load_emails (decode : String → List Nat → Option (List Char))
    (bs : List Nat) : LoadOutcome :=
  match firstDecode decode candidateEncodings bs with
  | none => .returned [Diag.decodeFailure] []
  | some content =>
    let r := parseEmails content
    .returned r.1 r.2

/-!
## Record validator / sanitizer (`clean_email_record`, src/utils.py)

The input is a Python dict whose keys may be absent, so each field is an
`Option (List Char)` (in the pipeline all values are strings).  The clock
read `datetime.utcnow().isoformat()` used for the timestamp default is
modelled by the explicit parameter `now`.  Lowering/uppering uses the
ASCII `Char.toLower`/`Char.toUpper` (the relevant tokens are ASCII).
The `logger.warning` calls do not affect the returned value and are not
modelled; the surrounding `try`/`except` can only fire on exceptions,
which the modelled operations never raise.
-/

structure RawInput where
  email_id : Option (List Char)
  sender_email : Option (List Char)
  sender_name : Option (List Char)
  subject : Option (List Char)
  body : Option (List Char)
  timestamp : Option (List Char)
  has_attachment : Option (List Char)
  thread_id : Option (List Char)
deriving DecidableEq, Repr

/-- View of a loader record as validator input (all eight keys present). -/
def RawRecord.toInput (r : RawRecord) : RawInput :=
  { email_id := some r.email_id, sender_email := some r.sender_email,
    sender_name := some r.sender_name, subject := some r.subject,
    body := some r.body, timestamp := some r.timestamp,
    has_attachment := some r.has_attachment, thread_id := some r.thread_id }

structure EmailRecord where
  email_id : List Char
  sender_email : List Char
  sender_name : List Char
  subject : List Char
  body : List Char
  timestamp : List Char
  has_attachment : Bool
  thread_id : List Char
deriving DecidableEq, Repr

def lowerS (cs : List Char) : List Char := cs.map Char.toLower

def upperS (cs : List Char) : List Char := cs.map Char.toUpper

/-- `str(record.get(k, '')).strip() if record.get(k) else ''`: a missing
key or an empty (falsy) string gives `''`, otherwise the stripped value. -/
def fieldStr (v : Option (List Char)) : List Char :=
  match v with
  | some (c :: cs) => pyStrip (c :: cs)
  | _ => []

/-- Same with `.lower()` appended, as used for `sender_email`. -/
def fieldStrLower (v : Option (List Char)) : List Char :=
  match v with
  | some (c :: cs) => lowerS (pyStrip (c :: cs))
  | _ => []

/-- `sender_email` block: default `unknown@domain.com` when empty, missing
`@`, or a header echo. -/
def cleanSenderEmail (v : Option (List Char)) : List Char :=
  let sender_email := fieldStrLower v
  if sender_email = [] ∨ '@' ∉ sender_email ∨
      lowerS sender_email = "sender_email".data then
    "unknown@domain.com".data
  else sender_email

/-- `sender_name` block. -/
def cleanSenderName (v : Option (List Char)) : List Char :=
  let sender_name := fieldStr v
  if sender_name = [] ∨ lowerS sender_name = "sender_name".data ∨
      lowerS sender_name = "nan".data ∨ lowerS sender_name = "none".data then
    "Unknown Sender".data
  else sender_name

/-- `re.sub(r'\n+', ' ', s)`: collapse each run of newlines to one space.
The flag records whether the previous character was part of a newline run. -/
def collapseNLAux : Bool → List Char → List Char
  | _, [] => []
  | prevNL, c :: cs =>
    if c = '\n' then
      if prevNL then collapseNLAux true cs
      else ' ' :: collapseNLAux true cs
    else c :: collapseNLAux false cs

def collapseNL (cs : List Char) : List Char := collapseNLAux false cs

example : collapseNL "a\n\n\nb\nc".data = "a b c".data := by decide

/-- `subject` block: default, then
`subject.replace('\\n', ' ').replace('""', '"').strip()`, then
`re.sub(r'\n+', ' ', subject)`, then `subject[:200]`. -/
def cleanSubject (v : Option (List Char)) : List Char :=
  let subject := fieldStr v
  let subject :=
    if subject = [] ∨ lowerS subject = "subject".data ∨
        lowerS subject = "nan".data then
      "No Subject".data
    else subject
  let subject := pyStrip (pyReplace2 '"' '"' ['"']
    (pyReplace2 '\\' 'n' [' '] subject))
  let subject := collapseNL subject
  subject.take 200

/-- Python `s.split('\n')` with no split limit. -/
def splitOnNL : List Char → List (List Char)
  | [] => [[]]
  | c :: cs =>
    let r := splitOnNL cs
    if c = '\n' then [] :: r
    else
      match r with
      | p :: ps => (c :: p) :: ps
      | [] => [[c]]

example : splitOnNL "a\nb\n".data = ["a".data, "b".data, []] := by decide

/-- `body` block: default, then
`body.replace('\\n', '\n').replace('""', '"').strip()`, then
`'\n'.join([line.strip() for line in body.split('\n') if line.strip()])`. -/
def cleanBody (v : Option (List Char)) : List Char :=
  let body := fieldStr v
  let body :=
    if body = [] ∨ lowerS body = "body".data ∨ lowerS body = "nan".data then
      "No content".data
    else body
  let body := pyStrip (pyReplace2 '"' '"' ['"']
    (pyReplace2 '\\' 'n' ['\n'] body))
  List.intercalate "\n".data
    (((splitOnNL body).map pyStrip).filter (fun l => l ≠ []))

/-- `timestamp` block: default `datetime.utcnow().isoformat() + 'Z'`,
with the clock reading passed in as `now`. -/
def cleanTimestamp (now : List Char) (v : Option (List Char)) : List Char :=
  let timestamp := fieldStr v
  if timestamp = [] ∨ lowerS timestamp = "timestamp".data ∨
      lowerS timestamp = "nan".data then
    now ++ ['Z']
  else timestamp

/-- `has_attachment` block:
`str(record.get('has_attachment', 'FALSE')).strip().upper() if ... else 'FALSE'`
then membership in `['TRUE', 'YES', '1', 'T']`. -/
def cleanHasAttachment (v : Option (List Char)) : Bool :=
  let s :=
    match v with
    | some (c :: cs) => upperS (pyStrip (c :: cs))
    | _ => "FALSE".data
  s = "TRUE".data ∨ s = "YES".data ∨ s = "1".data ∨ s = "T".data

/-- `thread_id` block: default `f"thread_{email_id}"`. -/
def cleanThreadId (email_id : List Char) (v : Option (List Char)) : List Char :=
  let thread_id := fieldStr v
  if thread_id = [] ∨ lowerS thread_id = "thread_id".data ∨
      lowerS thread_id = "nan".data then
    "thread_".data ++ email_id
  else thread_id

/-- `clean_email_record`: reject on a missing/blank/header-echo email id,
otherwise build the fully populated record. -/
def clean_email_record (now : List Char) (record : RawInput) :
    Option EmailRecord :=
  let email_id := fieldStr record.email_id
  if email_id = [] ∨ lowerS email_id = "email_id".data ∨
      lowerS email_id = "nan".data then
    none
  else
    some { email_id := email_id,
           sender_email := cleanSenderEmail record.sender_email,
           sender_name := cleanSenderName record.sender_name,
           subject := cleanSubject record.subject,
           body := cleanBody record.body,
           timestamp := cleanTimestamp now record.timestamp,
           has_attachment := cleanHasAttachment record.has_attachment,
           thread_id := cleanThreadId email_id record.thread_id }

/-- The cleaning loop of `load_emails_from_csv`: keep exactly the records
the validator accepts, in order. -/
def cleanedEmails (now : List Char) (rs : List RawInput) : List EmailRecord :=
  rs.filterMap (clean_email_record now)

/-- `load_emails_from_csv`: load, then validate each record.  The
`except` fallback returning `[]` is unreachable in the model (the loader
never raises), but is kept for fidelity. -/
def load_emails_from_csv (decode : String → List Nat → Option (List Char))
    (bs : List Nat) (now : List Char) : List EmailRecord :=
  match clean_and_load_emails decode bs with
  | .returned _ recs => cleanedEmails now (recs.map RawRecord.toInput)
  | .raised => []

/-!
## Lemmas about the segmenter
-/

theorem matchBoundary_nil : matchBoundary [] = none := rfl

theorem matchBoundary_single (c : Char) : matchBoundary [c] = none := rfl

theorem matchBoundary_cons_cons (c1 c2 : Char) (u : List Char) :
    matchBoundary (c1 :: c2 :: u) =
      if c1 = '\n' ∧ c2 = '"' ∧ u.takeWhile Char.isDigit ≠ [] ∧
          (u.dropWhile Char.isDigit).head? = some ',' then
        some (u.takeWhile Char.isDigit, (u.dropWhile Char.isDigit).tail)
      else none := rfl

theorem takeWhile_append_all {p : Char → Bool} :
    ∀ {l1 : List Char} (l2 : List Char), (∀ c ∈ l1, p c = true) →
      (l1 ++ l2).takeWhile p = l1 ++ l2.takeWhile p := by
  intro l1
  induction l1 with
  | nil => intro l2 _; rfl
  | cons c l1 ih =>
    intro l2 h
    have hc : p c = true := h c (by simp)
    simp only [List.cons_append, List.takeWhile_cons, hc, if_pos]
    rw [ih l2 (fun x hx => h x (by simp [hx]))]

theorem dropWhile_append_all {p : Char → Bool} :
    ∀ {l1 : List Char} (l2 : List Char), (∀ c ∈ l1, p c = true) →
      (l1 ++ l2).dropWhile p = l2.dropWhile p := by
  intro l1
  induction l1 with
  | nil => intro l2 _; rfl
  | cons c l1 ih =>
    intro l2 h
    have hc : p c = true := h c (by simp)
    simp only [List.cons_append, List.dropWhile_cons, hc, if_pos]
    exact ih l2 (fun x hx => h x (by simp [hx]))

theorem takeWhile_append_stop {p : Char → Bool} :
    ∀ {l1 : List Char} (l2 : List Char), l1.dropWhile p ≠ [] →
      (l1 ++ l2).takeWhile p = l1.takeWhile p := by
  intro l1
  induction l1 with
  | nil => intro l2 h; exact absurd rfl h
  | cons c l1 ih =>
    intro l2 h
    by_cases hc : p c = true
    · simp only [List.dropWhile_cons, hc, if_pos] at h
      simp only [List.cons_append, List.takeWhile_cons, hc, if_pos]
      rw [ih l2 h]
    · simp only [List.cons_append, List.takeWhile_cons, hc]
      simp

theorem dropWhile_append_stop {p : Char → Bool} :
    ∀ {l1 : List Char} (l2 : List Char), l1.dropWhile p ≠ [] →
      (l1 ++ l2).dropWhile p = l1.dropWhile p ++ l2 := by
  intro l1
  induction l1 with
  | nil => intro l2 h; exact absurd rfl h
  | cons c l1 ih =>
    intro l2 h
    by_cases hc : p c = true
    · simp only [List.dropWhile_cons, hc, if_pos] at h
      simp only [List.cons_append, List.dropWhile_cons, hc, if_pos]
      exact ih l2 h
    · simp only [List.cons_append, List.dropWhile_cons, hc]
      simp

/-- Shape of a successful boundary match. -/
theorem matchBoundary_some {l ds rest : List Char}
    (h : matchBoundary l = some (ds, rest)) :
    ∃ u, l = '\n' :: '"' :: u ∧ ds = u.takeWhile Char.isDigit ∧ ds ≠ [] ∧
      u.dropWhile Char.isDigit = ',' :: rest := by
  match l with
  | [] => rw [matchBoundary_nil] at h; exact absurd h (by simp)
  | [c] => rw [matchBoundary_single] at h; exact absurd h (by simp)
  | c1 :: c2 :: u =>
    rw [matchBoundary_cons_cons] at h
    by_cases hc : c1 = '\n' ∧ c2 = '"' ∧ u.takeWhile Char.isDigit ≠ [] ∧
        (u.dropWhile Char.isDigit).head? = some ','
    · rw [if_pos hc] at h
      obtain ⟨hc1, hc2, hne, hhead⟩ := hc
      subst hc1; subst hc2
      simp only [Option.some.injEq, Prod.mk.injEq] at h
      obtain ⟨hds, hrest⟩ := h
      refine ⟨u, rfl, hds.symm, hds ▸ hne, ?_⟩
      cases hd : u.dropWhile Char.isDigit with
      | nil => rw [hd] at hhead; simp at hhead
      | cons d t =>
        rw [hd] at hhead hrest
        obtain rfl : d = ',' := by simpa using hhead
        simp only [List.tail_cons] at hrest
        rw [hrest]
    · rw [if_neg hc] at h; exact absurd h (by simp)

/-- A boundary match consumes at least four characters. -/
theorem matchBoundary_some_length {l ds rest : List Char}
    (h : matchBoundary l = some (ds, rest)) : rest.length + 4 ≤ l.length := by
  obtain ⟨u, rfl, hds, hne, hdrop⟩ := matchBoundary_some h
  have hu : u.takeWhile Char.isDigit ++ u.dropWhile Char.isDigit = u :=
    List.takeWhile_append_dropWhile _ _
  have h1 : 1 ≤ (u.takeWhile Char.isDigit).length := by
    have := List.length_pos.mpr (hds ▸ hne)
    omega
  have h2 := congrArg List.length hu
  rw [hdrop] at h2
  simp only [List.length_append, List.length_cons] at h2
  simp only [List.length_cons]
  omega

/-- The captured group of a boundary match is a non-empty digit string. -/
theorem matchBoundary_some_digits {l ds rest : List Char}
    (h : matchBoundary l = some (ds, rest)) :
    ds ≠ [] ∧ ∀ c ∈ ds, c.isDigit = true := by
  obtain ⟨u, rfl, hds, hne, _⟩ := matchBoundary_some h
  exact ⟨hne, fun c hc => List.mem_takeWhile_imp (hds ▸ hc)⟩

/-- A failed match at the head of `c :: cs` stays failed when well-formed
continuation text is appended: the pattern contains no interior newline,
and the continuation starts with one (or is empty). -/
theorem matchBoundary_append_none {c : Char} {cs rest : List Char}
    (h : matchBoundary (c :: cs) = none) (hrest : nlHead rest) :
    matchBoundary ((c :: cs) ++ rest) = none := by
  cases cs with
  | nil =>
    rcases hrest with hre | hre
    · subst hre; exact h
    · cases rest with
      | nil => exact h
      | cons r rs =>
        obtain rfl : r = '\n' := by simpa using hre
        rw [List.cons_append, List.nil_append, matchBoundary_cons_cons]
        rw [if_neg]
        intro hcond
        exact absurd hcond.2.1 (by decide)
  | cons c2 u =>
    rw [matchBoundary_cons_cons] at h
    rw [List.cons_append, List.cons_append, matchBoundary_cons_cons]
    by_cases hc0 : c = '\n' ∧ c2 = '"' ∧ u.takeWhile Char.isDigit ≠ [] ∧
        (u.dropWhile Char.isDigit).head? = some ','
    · rw [if_pos hc0] at h; exact absurd h (by simp)
    · rw [if_neg hc0] at h
      rw [if_neg]
      intro hc
      obtain ⟨hc1, hc2, hne, hhead⟩ := hc
      by_cases hd : u.dropWhile Char.isDigit = []
      · have hall : ∀ x ∈ u, Char.isDigit x = true :=
          List.dropWhile_eq_nil_iff.mp hd
        rw [dropWhile_append_all rest hall] at hhead
        rcases hrest with hre | hre
        · subst hre; simp at hhead
        · cases rest with
          | nil => simp at hhead
          | cons r rs =>
            obtain rfl : r = '\n' := by simpa using hre
            rw [List.dropWhile_cons] at hhead
            simp [Char.isDigit] at hhead
      · rw [takeWhile_append_stop rest hd] at hne
        rw [dropWhile_append_stop rest hd] at hhead
        apply hc0
        refine ⟨hc1, hc2, hne, ?_⟩
        cases hdd : u.dropWhile Char.isDigit with
        | nil => exact absurd hdd hd
        | cons d t => rw [hdd] at hhead; simpa using hhead

theorem boundaryFreeB_cons {c : Char} {cs : List Char}
    (h : boundaryFreeB (c :: cs) = true) :
    matchBoundary (c :: cs) = none ∧ boundaryFreeB cs = true := by
  simp only [boundaryFreeB, Bool.and_eq_true, Option.isNone_iff_eq_none] at h
  exact h

/-- The fueled scan is independent of the fuel, once the fuel covers the
input length. -/
theorem reSplitFuel_congr :
    ∀ (n : Nat) (cs : List Char) (m : Nat), cs.length ≤ n → cs.length ≤ m →
      reSplitFuel n cs = reSplitFuel m cs := by
  intro n
  induction n with
  | zero =>
    intro cs m hn _
    have hcs : cs = [] := List.eq_nil_of_length_eq_zero (by omega)
    subst hcs
    cases m <;> rfl
  | succ n ih =>
    intro cs m hn hm
    cases cs with
    | nil => cases m <;> rfl
    | cons c cs =>
      cases m with
      | zero => simp at hm
      | succ m' =>
        simp only [reSplitFuel]
        cases hmb : matchBoundary (c :: cs) with
        | some p =>
          obtain ⟨ds, rest⟩ := p
          have hlen := matchBoundary_some_length hmb
          simp only [List.length_cons] at hlen hn hm
          dsimp only
          rw [ih rest m' (by omega) (by omega)]
        | none =>
          simp only [List.length_cons] at hn hm
          dsimp only
          rw [ih cs m' (by omega) (by omega)]

/-- Boundary-free text followed by well-formed continuation text is
absorbed whole into the current piece, and scanning resumes on the
continuation. -/
theorem reSplitFuel_append :
    ∀ (cs : List Char) (rest : List Char) (n : Nat),
      boundaryFreeB cs = true → nlHead rest →
      cs.length + rest.length ≤ n →
      reSplitFuel n (cs ++ rest) =
        (cs ++ (reSplit rest).1, (reSplit rest).2) := by
  intro cs
  induction cs with
  | nil =>
    intro rest n _ _ hn
    simp only [List.nil_append]
    rw [reSplit, reSplitFuel_congr n rest rest.length (by omega) le_rfl]
  | cons c cs ih =>
    intro rest n hfree hrest hn
    obtain ⟨hm0, hfree'⟩ := boundaryFreeB_cons hfree
    have hm : matchBoundary (c :: (cs ++ rest)) = none := by
      have h2 := matchBoundary_append_none hm0 hrest
      rwa [List.cons_append] at h2
    cases n with
    | zero =>
      exfalso
      simp only [List.length_cons] at hn
      omega
    | succ n' =>
      rw [List.cons_append]
      simp only [reSplitFuel, hm]
      simp only [List.length_cons] at hn
      rw [ih rest n' hfree' hrest (by omega)]
      rfl

theorem rowsText_nil : rowsText [] = [] := rfl

theorem rowsText_cons (p : List Char × List Char)
    (rows : List (List Char × List Char)) :
    rowsText (p :: rows) = mkRow p ++ rowsText rows := by
  simp [rowsText]

/-- Scanning the concatenated text of well-formed rows yields exactly
those rows, with an empty leading piece. -/
theorem reSplitFuel_rowsText :
    ∀ (rows : List (List Char × List Char)), (∀ p ∈ rows, goodRow p) →
      ∀ n, (rowsText rows).length ≤ n →
      reSplitFuel n (rowsText rows) = ([], rows) := by
  intro rows
  induction rows with
  | nil =>
    intro _ n _
    rw [rowsText_nil]
    cases n <;> rfl
  | cons p rows ih =>
    intro hgood n hn
    obtain ⟨id0, body⟩ := p
    obtain ⟨hid_ne, hid_dig, hbody⟩ := hgood (id0, body) (by simp)
    dsimp only at hid_ne hid_dig hbody
    have hrows' : ∀ q ∈ rows, goodRow q := fun q hq => hgood q (by simp [hq])
    rw [rowsText_cons] at hn ⊢
    simp only [mkRow, List.cons_append] at hn ⊢
    have hassoc : (id0 ++ ',' :: body) ++ rowsText rows =
        id0 ++ ',' :: (body ++ rowsText rows) := by
      rw [List.append_assoc]; rfl
    rw [hassoc] at hn ⊢
    have htake : (id0 ++ ',' :: (body ++ rowsText rows)).takeWhile
        Char.isDigit = id0 := by
      rw [takeWhile_append_all _ hid_dig]
      rw [List.takeWhile_cons]
      simp [Char.isDigit]
    have hdrop : (id0 ++ ',' :: (body ++ rowsText rows)).dropWhile
        Char.isDigit = ',' :: (body ++ rowsText rows) := by
      rw [dropWhile_append_all _ hid_dig]
      rw [List.dropWhile_cons]
      simp [Char.isDigit]
    have hm : matchBoundary ('\n' :: '"' ::
        (id0 ++ ',' :: (body ++ rowsText rows))) =
        some (id0, body ++ rowsText rows) := by
      rw [matchBoundary_cons_cons]
      rw [if_pos ⟨rfl, rfl, by rw [htake]; exact hid_ne, by rw [hdrop]; rfl⟩]
      rw [htake, hdrop]
      rfl
    cases n with
    | zero => simp at hn
    | succ n' =>
      simp only [reSplitFuel, hm]
      have h1 : 1 ≤ id0.length := by
        have hp := List.length_pos.mpr hid_ne
        omega
      have hlen : body.length + (rowsText rows).length ≤ n' := by
        simp only [List.length_cons, List.length_append] at hn
        omega
      have hnl : nlHead (rowsText rows) := by
        cases rows with
        | nil => left; rfl
        | cons q rows' =>
          right
          rw [rowsText_cons]
          simp [mkRow]
      rw [reSplitFuel_append body (rowsText rows) n' hbody hnl hlen]
      have hrec : reSplit (rowsText rows) = ([], rows) := by
        rw [reSplit]
        exact ih hrows' (rowsText rows).length le_rfl
      rw [hrec]
      simp

/-!
## Lemmas about the per-row loop
-/

theorem get_zero_eq_headI {α : Type} [Inhabited α] (l : List α)
    (h : 0 < l.length) : l.get ⟨0, h⟩ = l.headI := by
  cases l with
  | nil => simp at h
  | cons a l => rfl

/-- The loop over segments distributes over concatenation of segment
lists: diagnostics and records are both concatenated in order. -/
theorem processSegs_append (a b : List (List Char × List Char)) :
    processSegs (a ++ b) =
      ((processSegs a).1 ++ (processSegs b).1,
       (processSegs a).2 ++ (processSegs b).2) := by
  induction a with
  | nil => simp [processSegs]
  | cons p a ih =>
    obtain ⟨i, rest⟩ := p
    simp only [List.cons_append, processSegs]
    cases processRow i rest <;> simp [ih]

/-- A row whose right-split or left-split has fewer than four parts is
rejected with a diagnostic naming the captured identifier. -/
theorem processRow_malformed (id0 rest : List Char)
    (H : (rsplitN ',' 3 (cleanSegment rest)).length < 4 ∨
         (splitN ',' 3
            ((rsplitN ',' 3 (cleanSegment rest)).headI)).length < 4) :
    ∃ d, processRow id0 rest = .error d ∧ d.rowId = some id0 := by
  unfold processRow
  by_cases h4 : (rsplitN ',' 3 (cleanSegment rest)).length < 4
  · exact ⟨Diag.malformedRight id0, by rw [dif_pos h4], rfl⟩
  · rw [dif_neg h4]
    have hH : (splitN ',' 3
        ((rsplitN ',' 3 (cleanSegment rest)).headI)).length < 4 := by
      rcases H with H | H
      · exact absurd H h4
      · exact H
    have hget : (rsplitN ',' 3 (cleanSegment rest)).get ⟨0, by omega⟩ =
        (rsplitN ',' 3 (cleanSegment rest)).headI :=
      get_zero_eq_headI _ (by omega)
    refine ⟨Diag.malformedLeft id0, ?_, rfl⟩
    rw [dif_pos]
    rw [hget]
    exact hH

/-!
## Lemmas about the body normalizer
-/

/-- Whether a doubled double-quote occurs somewhere in the text. -/
def hasDoubledQuote : List Char → Bool
  | [] => false
  | [_] => false
  | c1 :: c2 :: cs => (c1 = '"' && c2 = '"') || hasDoubledQuote (c2 :: cs)

theorem pyReplace2_cons_ne {c : Char} (hc : c ≠ '"') (l : List Char) :
    pyReplace2 '"' '"' ['"'] (c :: l) = c :: pyReplace2 '"' '"' ['"'] l := by
  cases l with
  | nil => rfl
  | cons c2 l2 =>
    simp only [pyReplace2]
    rw [if_neg]
    intro h
    exact hc h.1

theorem pyReplace2_id_of_no_doubled :
    ∀ cs : List Char, hasDoubledQuote cs = false →
      pyReplace2 '"' '"' ['"'] cs = cs := by
  intro cs
  induction cs with
  | nil => intro _; rfl
  | cons c cs ih =>
    cases cs with
    | nil => intro _; rfl
    | cons c2 cs2 =>
      intro h
      simp only [hasDoubledQuote, Bool.or_eq_false_iff, Bool.and_eq_false_iff,
        decide_eq_false_iff_not] at h
      simp only [pyReplace2]
      rw [if_neg, ih h.2]
      intro hand
      rcases h.1 with h1 | h1 <;> exact h1 (by simp [hand.1, hand.2])

/-- Text with no doubled quote that is not wrapped in quotes is a fixed
point of the body normalizer. -/
theorem normalizeBody_fixed {y : List Char}
    (h1 : hasDoubledQuote y = false) (h2 : ¬ wrappedInQuotes y) :
    normalizeBody y = y := by
  unfold normalizeBody
  rw [pyReplace2_id_of_no_doubled y h1, if_neg h2]

/-- The source format's escaping convention: double every double quote. -/
def doubleQuotes : List Char → List Char
  | [] => []
  | c :: cs =>
    if c = '"' then '"' :: '"' :: doubleQuotes cs else c :: doubleQuotes cs

theorem pyReplace2_doubleQuotes :
    ∀ B : List Char, pyReplace2 '"' '"' ['"'] (doubleQuotes B) = B := by
  intro B
  induction B with
  | nil => rfl
  | cons c cs ih =>
    by_cases hc : c = '"'
    · subst hc
      have hcond : ('"' : Char) = '"' ∧ ('"' : Char) = '"' := ⟨rfl, rfl⟩
      simp only [doubleQuotes, if_pos rfl, pyReplace2, if_pos hcond]
      simpa using ih
    · simp only [doubleQuotes, if_neg hc]
      rw [pyReplace2_cons_ne hc, ih]

/-!
## Lemmas about the validator
-/

theorem toLower_eq_self_of_isDigit {c : Char} (h : c.isDigit = true) :
    c.toLower = c := by
  simp only [Char.isDigit, Bool.and_eq_true, decide_eq_true_eq] at h
  unfold Char.toLower
  rw [if_neg]
  intro hc
  have h2 : c.val.toNat ≤ 57 := by
    have h4 := h.2
    rw [UInt32.le_def] at h4
    exact h4
  have h3 : 65 ≤ c.val.toNat := hc.1
  omega

theorem isPySpace_eq_false_of_isDigit {c : Char} (h : c.isDigit = true) :
    isPySpace c = false := by
  unfold isPySpace
  simp only [Bool.or_eq_false_iff, decide_eq_false_iff_not]
  refine ⟨⟨⟨⟨⟨?_, ?_⟩, ?_⟩, ?_⟩, ?_⟩, ?_⟩ <;>
    (intro hc; subst hc; exact absurd h (by decide))

theorem dropWhile_eq_self_of_false {p : Char → Bool} {l : List Char}
    (h : ∀ c ∈ l, p c = false) : l.dropWhile p = l := by
  cases l with
  | nil => rfl
  | cons c cs =>
    rw [List.dropWhile_cons]
    simp [h c (List.mem_cons_self c cs)]

theorem pyStrip_eq_self_of_digits {l : List Char}
    (h : ∀ c ∈ l, c.isDigit = true) : pyStrip l = l := by
  have hf : ∀ c ∈ l, isPySpace c = false :=
    fun c hc => isPySpace_eq_false_of_isDigit (h c hc)
  unfold pyStrip
  rw [dropWhile_eq_self_of_false hf]
  rw [dropWhile_eq_self_of_false (fun c hc => hf c (List.mem_reverse.mp hc))]
  exact List.reverse_reverse l

theorem lowerS_eq_self_of_digits {l : List Char}
    (h : ∀ c ∈ l, c.isDigit = true) : lowerS l = l := by
  induction l with
  | nil => rfl
  | cons c t ih =>
    simp only [lowerS, List.map_cons]
    rw [toLower_eq_self_of_isDigit (h c (by simp))]
    have := ih (fun x hx => h x (by simp [hx]))
    simp only [lowerS] at this
    rw [this]

theorem cleanSenderEmail_ne_nil (v : Option (List Char)) :
    cleanSenderEmail v ≠ [] := by
  unfold cleanSenderEmail
  dsimp only
  split
  · decide
  · rename_i hc
    exact fun he => hc (Or.inl he)

theorem cleanSenderName_ne_nil (v : Option (List Char)) :
    cleanSenderName v ≠ [] := by
  unfold cleanSenderName
  dsimp only
  split
  · decide
  · rename_i hc
    exact fun he => hc (Or.inl he)

theorem cleanTimestamp_ne_nil (now : List Char) (v : Option (List Char)) :
    cleanTimestamp now v ≠ [] := by
  unfold cleanTimestamp
  dsimp only
  split
  · simp
  · rename_i hc
    exact fun he => hc (Or.inl he)

theorem cleanThreadId_ne_nil (email_id : List Char)
    (v : Option (List Char)) : cleanThreadId email_id v ≠ [] := by
  unfold cleanThreadId
  dsimp only
  split
  · simp
  · rename_i hc
    exact fun he => hc (Or.inl he)

theorem cleanSenderEmail_default (v : Option (List Char))
    (hse : fieldStrLower v = [] ∨ '@' ∉ fieldStrLower v) :
    cleanSenderEmail v = "unknown@domain.com".data := by
  unfold cleanSenderEmail
  rw [if_pos]
  rcases hse with hse | hse
  · exact Or.inl hse
  · exact Or.inr (Or.inl hse)

theorem cleanTimestamp_default (now : List Char) (v : Option (List Char))
    (hts : fieldStr v = []) :
    cleanTimestamp now v ≠ [] ∧
    (cleanTimestamp now v).getLast? = some 'Z' := by
  unfold cleanTimestamp
  rw [if_pos (Or.inl hts)]
  exact ⟨by simp, List.getLast?_concat now⟩

/-!
## Lemmas for the end-to-end identifier invariant
-/

/-- Every identifier captured by the scan is a non-empty digit string. -/
theorem reSplitFuel_ids :
    ∀ (n : Nat) (cs : List Char) (p : List Char × List Char),
      p ∈ (reSplitFuel n cs).2 →
      p.1 ≠ [] ∧ ∀ c ∈ p.1, c.isDigit = true := by
  intro n
  induction n with
  | zero => intro cs p hp; simp [reSplitFuel] at hp
  | succ n ih =>
    intro cs p hp
    cases cs with
    | nil => simp [reSplitFuel] at hp
    | cons c cs =>
      simp only [reSplitFuel] at hp
      cases hmb : matchBoundary (c :: cs) with
      | some q =>
        obtain ⟨ds, rest⟩ := q
        rw [hmb] at hp
        dsimp only at hp
        rcases List.mem_cons.mp hp with hp | hp
        · obtain ⟨hne, hdig⟩ := matchBoundary_some_digits hmb
          rw [hp]
          exact ⟨hne, hdig⟩
        · exact ih rest p hp
      | none =>
        rw [hmb] at hp
        dsimp only at hp
        exact ih cs p hp

/-- The extractor copies the captured identifier into the record. -/
theorem processRow_ok_email_id {id0 rest : List Char} {rec : RawRecord}
    (h : processRow id0 rest = .ok rec) : rec.email_id = id0 := by
  unfold processRow at h
  dsimp only at h
  split at h
  · exact absurd h (by simp)
  · split at h
    · exact absurd h (by simp)
    · simp only [Except.ok.injEq] at h
      rw [← h]

/-- Every record built by the loop comes from one of its segments. -/
theorem processSegs_records :
    ∀ (segs : List (List Char × List Char)) (rec : RawRecord),
      rec ∈ (processSegs segs).2 →
      ∃ p ∈ segs, processRow p.1 p.2 = .ok rec := by
  intro segs
  induction segs with
  | nil => intro rec h; simp [processSegs] at h
  | cons q segs ih =>
    obtain ⟨i, rest⟩ := q
    intro rec h
    simp only [processSegs] at h
    cases hq : processRow i rest with
    | ok r0 =>
      rw [hq] at h
      dsimp only at h
      rcases List.mem_cons.mp h with h | h
      · exact ⟨(i, rest), by simp, by rw [hq, h]⟩
      · obtain ⟨p, hp, he⟩ := ih rec h
        exact ⟨p, by simp [hp], he⟩
    | error d =>
      rw [hq] at h
      dsimp only at h
      obtain ⟨p, hp, he⟩ := ih rec h
      exact ⟨p, by simp [hp], he⟩

theorem fieldStr_some_of_ne_nil {id0 : List Char} (h : id0 ≠ []) :
    fieldStr (some id0) = pyStrip id0 := by
  cases id0 with
  | nil => exact absurd rfl h
  | cons c cs => rfl

/-- The validator keeps an accepted non-empty all-digit identifier
unchanged. -/
theorem clean_email_record_digit_id (now : List Char) (rec : RawRecord)
    (hne : rec.email_id ≠ [])
    (hdig : ∀ ch ∈ rec.email_id, ch.isDigit = true)
    (c : EmailRecord) (h : clean_email_record now rec.toInput = some c) :
    c.email_id ≠ [] ∧ ∀ ch ∈ c.email_id, ch.isDigit = true := by
  have hfs : fieldStr (RawRecord.toInput rec).email_id = rec.email_id := by
    show fieldStr (some rec.email_id) = rec.email_id
    rw [fieldStr_some_of_ne_nil hne, pyStrip_eq_self_of_digits hdig]
  unfold clean_email_record at h
  dsimp only at h
  rw [hfs] at h
  split at h
  · exact absurd h (by simp)
  · simp only [Option.some.injEq] at h
    subst h
    exact ⟨hne, hdig⟩

/-!
## Claim theorems
-/

/-- C1: on the single row segment
`1,a@b.com,Name,Subj,line1\nline2,2025-01-01T00:00:00Z,TRUE,thread_9`
with boundary-captured identifier `1`, the right-split-then-left-split
extractor yields exactly the eight advertised fields (the raw
`has_attachment` string `TRUE`, which the validator maps to the boolean
`true`, leaving every other field unchanged). -/
theorem extractor_right_then_left_split_correct :
    processRow "1".data
      "a@b.com,Name,Subj,line1\nline2,2025-01-01T00:00:00Z,TRUE,thread_9".data =
      .ok { email_id := "1".data, sender_email := "a@b.com".data,
            sender_name := "Name".data, subject := "Subj".data,
            body := "line1\nline2".data,
            timestamp := "2025-01-01T00:00:00Z".data,
            has_attachment := "TRUE".data, thread_id := "thread_9".data } ∧
    clean_email_record "2025-06-01T00:00:00".data
      (RawRecord.toInput
        { email_id := "1".data, sender_email := "a@b.com".data,
          sender_name := "Name".data, subject := "Subj".data,
          body := "line1\nline2".data,
          timestamp := "2025-01-01T00:00:00Z".data,
          has_attachment := "TRUE".data, thread_id := "thread_9".data }) =
      some { email_id := "1".data, sender_email := "a@b.com".data,
             sender_name := "Name".data, subject := "Subj".data,
             body := "line1\nline2".data,
             timestamp := "2025-01-01T00:00:00Z".data,
             has_attachment := true, thread_id := "thread_9".data } :=
  ⟨rfl, by decide⟩

/-- C5: a decoded document made of a header containing no boundary
pattern followed by N well-formed rows (newline, quote, non-empty digit
identifier, comma, boundary-free remainder) is segmented into exactly
those N (identifier, segment) pairs, identifiers in document order; the
header is returned separately and the record pipeline (`parseEmails`)
consumes only the pairs, so the header is never emitted as a record. -/
theorem segmenter_boundary_complete (hdr : List Char)
    (rows : List (List Char × List Char))
    (hhdr : boundaryFreeB hdr = true)
    (hrows : ∀ p ∈ rows, goodRow p) :
    reSplit (hdr ++ rowsText rows) = (hdr, rows) ∧
    parseEmails (hdr ++ rowsText rows) = processSegs rows := by
  have hnl : nlHead (rowsText rows) := by
    cases rows with
    | nil => left; rfl
    | cons q rows' => right; rw [rowsText_cons]; simp [mkRow]
  have h1 : reSplit (hdr ++ rowsText rows) = (hdr, rows) := by
    rw [reSplit]
    rw [reSplitFuel_append hdr (rowsText rows) _ hhdr hnl
      (by simp [List.length_append])]
    rw [reSplit, reSplitFuel_rowsText rows hrows _ le_rfl]
    simp
  exact ⟨h1, by rw [parseEmails, h1]⟩

theorem segmenter_boundary_complete_witness :
    boundaryFreeB "email_id,sender_email".data = true ∧
    (∀ p ∈ [("1".data, "a@b.com,A,S,hi,t0,TRUE,th1".data),
            ("23".data, "c@d.com,B,T,yo,t1,FALSE,th2".data)], goodRow p) ∧
    reSplit ("email_id,sender_email".data ++
        rowsText [("1".data, "a@b.com,A,S,hi,t0,TRUE,th1".data),
                  ("23".data, "c@d.com,B,T,yo,t1,FALSE,th2".data)]) =
      ("email_id,sender_email".data,
        [("1".data, "a@b.com,A,S,hi,t0,TRUE,th1".data),
         ("23".data, "c@d.com,B,T,yo,t1,FALSE,th2".data)]) :=
  ⟨by decide, by decide,
    (segmenter_boundary_complete "email_id,sender_email".data
      [("1".data, "a@b.com,A,S,hi,t0,TRUE,th1".data),
       ("23".data, "c@d.com,B,T,yo,t1,FALSE,th2".data)]
      (by decide) (by decide)).1⟩

/-- C2 counterexample: the body normalizer is not idempotent on every
input.  On the four characters `"""a` the first pass un-escapes the
leading doubled quote and leaves `""a`, which still contains a doubled
quote, so a second pass shrinks it further to `"a`. -/
theorem normalizeBody_not_idempotent :
    normalizeBody (normalizeBody "\"\"\"a".data) ≠
      normalizeBody "\"\"\"a".data := by decide

/-- C2 (amended): the body normalizer is idempotent on every input whose
first normalization pass leaves no doubled double-quote and does not leave
text that still both starts and ends with a double quote; on such inputs a
second application is a no-op. -/
theorem normalizeBody_idempotent_of_normalized (cs : List Char)
    (h1 : hasDoubledQuote (normalizeBody cs) = false)
    (h2 : ¬ wrappedInQuotes (normalizeBody cs)) :
    normalizeBody (normalizeBody cs) = normalizeBody cs :=
  normalizeBody_fixed h1 h2

theorem normalizeBody_idempotent_of_normalized_witness :
    hasDoubledQuote (normalizeBody "line1\nline2".data) = false ∧
    ¬ wrappedInQuotes (normalizeBody "line1\nline2".data) ∧
    normalizeBody (normalizeBody "line1\nline2".data) =
      normalizeBody "line1\nline2".data :=
  ⟨by decide, by decide,
    normalizeBody_idempotent_of_normalized "line1\nline2".data
      (by decide) (by decide)⟩

/-- C3 counterexample: encoding the body `"a"` (which contains quotes) by
doubling each quote gives `""a""`; un-escaping restores `"a"`, but the
normalizer then strips the outer quote layer and returns `a`, not the
original text. -/
theorem roundtrip_fails_on_wrapped_body :
    normalizeBody (doubleQuotes "\"a\"".data) ≠ "\"a\"".data := by decide

/-- C3 (amended): for every body text `B` containing double-quote
characters that does not itself both start and end with a double quote,
encoding `B` by doubling each double quote and then applying the body
normalizer reproduces `B` exactly. -/
theorem normalizeBody_doubleQuotes_roundtrip (B : List Char)
    (_hq : '"' ∈ B) (hw : ¬ wrappedInQuotes B) :
    normalizeBody (doubleQuotes B) = B := by
  unfold normalizeBody
  rw [pyReplace2_doubleQuotes B, if_neg hw]

theorem normalizeBody_doubleQuotes_roundtrip_witness :
    '"' ∈ "say \"hi\", bye".data ∧
    ¬ wrappedInQuotes "say \"hi\", bye".data ∧
    normalizeBody (doubleQuotes "say \"hi\", bye".data) =
      "say \"hi\", bye".data :=
  ⟨by decide, by decide,
    normalizeBody_doubleQuotes_roundtrip "say \"hi\", bye".data
      (by decide) (by decide)⟩

/-- C4 counterexample: when every candidate encoding fails to decode
(modelled by an all-failing codec primitive on the empty byte string), the
loader does not propagate any error to the caller: it prints one
diagnostic and returns the normal value `[]`, indistinguishable from a
successfully decoded document with zero rows. -/
theorem decode_failure_does_not_raise :
    clean_and_load_emails (fun _ _ => none) [] =
      LoadOutcome.returned [Diag.decodeFailure] [] ∧
    clean_and_load_emails (fun _ _ => none) [] ≠ LoadOutcome.raised := by
  constructor
  · rfl
  · intro h
    exact LoadOutcome.noConfusion h

/-- C4 (amended): if none of the candidate encodings (utf-8, cp1252,
latin1) decodes the input bytes, the loader emits one decode diagnostic
and returns an empty record list — no partial output, but the failure is a
normal return, not an error propagated to the caller. -/
theorem decode_failure_returns_empty
    (decode : String → List Nat → Option (List Char)) (bs : List Nat)
    (h : ∀ enc ∈ candidateEncodings, decode enc bs = none) :
    clean_and_load_emails decode bs =
      LoadOutcome.returned [Diag.decodeFailure] [] := by
  have h1 := h "utf-8" (by simp [candidateEncodings])
  have h2 := h "cp1252" (by simp [candidateEncodings])
  have h3 := h "latin1" (by simp [candidateEncodings])
  simp [clean_and_load_emails, candidateEncodings, firstDecode, h1, h2, h3]

theorem decode_failure_returns_empty_witness :
    (∀ enc ∈ candidateEncodings,
      (fun (_ : String) (_ : List Nat) => (none : Option (List Char))) enc
        [255] = none) ∧
    clean_and_load_emails (fun _ _ => none) [255] =
      LoadOutcome.returned [Diag.decodeFailure] [] :=
  ⟨fun _ _ => rfl,
    decode_failure_returns_empty (fun _ _ => none) [255] (fun _ _ => rfl)⟩

/-- C6: a segment whose right-split (or whose subsequent left-split of
the middle chunk) yields fewer than 4 parts produces no record, produces
exactly one diagnostic naming the captured identifier, and does not stop
the loop: the diagnostics and records of the surrounding segments are
unchanged and keep their order. -/
theorem malformed_row_skip (id0 rest : List Char)
    (segs1 segs2 : List (List Char × List Char))
    (H : (rsplitN ',' 3 (cleanSegment rest)).length < 4 ∨
         (splitN ',' 3
            ((rsplitN ',' 3 (cleanSegment rest)).headI)).length < 4) :
    ∃ d, processRow id0 rest = .error d ∧ d.rowId = some id0 ∧
      processSegs (segs1 ++ (id0, rest) :: segs2) =
        ((processSegs segs1).1 ++ d :: (processSegs segs2).1,
         (processSegs segs1).2 ++ (processSegs segs2).2) := by
  obtain ⟨d, hd, hname⟩ := processRow_malformed id0 rest H
  refine ⟨d, hd, hname, ?_⟩
  rw [processSegs_append]
  have hmid : processSegs ((id0, rest) :: segs2) =
      (d :: (processSegs segs2).1, (processSegs segs2).2) := by
    simp only [processSegs, hd]
  rw [hmid]

theorem malformed_row_skip_witness :
    ((rsplitN ',' 3 (cleanSegment "only,two".data)).length < 4 ∨
     (splitN ',' 3
        ((rsplitN ',' 3 (cleanSegment "only,two".data)).headI)).length < 4) ∧
    (∃ d, processRow "2".data "only,two".data = .error d ∧
      d.rowId = some "2".data ∧
      processSegs ([("1".data, "a@b.com,A,S,hi,t0,TRUE,th1".data)] ++
          ("2".data, "only,two".data) ::
          [("3".data, "c@d.com,B,T,yo,t1,FALSE,th3".data)]) =
        ((processSegs [("1".data, "a@b.com,A,S,hi,t0,TRUE,th1".data)]).1 ++
           d :: (processSegs
             [("3".data, "c@d.com,B,T,yo,t1,FALSE,th3".data)]).1,
         (processSegs [("1".data, "a@b.com,A,S,hi,t0,TRUE,th1".data)]).2 ++
           (processSegs
             [("3".data, "c@d.com,B,T,yo,t1,FALSE,th3".data)]).2)) :=
  ⟨by decide,
    malformed_row_skip "2".data "only,two".data
      [("1".data, "a@b.com,A,S,hi,t0,TRUE,th1".data)]
      [("3".data, "c@d.com,B,T,yo,t1,FALSE,th3".data)] (by decide)⟩

/-- C7: the validator rejects a row whose email id is empty after
trimming or equals the header token `email_id` case-insensitively, and
such a row is absent from the caller's output sequence (the caller keeps
exactly the records the validator accepts). -/
theorem invalid_email_id_rejected (now : List Char) (r : RawInput)
    (H : fieldStr r.email_id = [] ∨
         lowerS (fieldStr r.email_id) = "email_id".data) :
    clean_email_record now r = none ∧
    ∀ pre post : List RawInput,
      (pre ++ r :: post).filterMap (clean_email_record now) =
        pre.filterMap (clean_email_record now) ++
        post.filterMap (clean_email_record now) := by
  have h0 : clean_email_record now r = none := by
    unfold clean_email_record
    rw [if_pos]
    rcases H with H | H
    · exact Or.inl H
    · exact Or.inr (Or.inl H)
  refine ⟨h0, ?_⟩
  intro pre post
  rw [List.filterMap_append]
  simp [List.filterMap_cons, h0]

theorem invalid_email_id_rejected_witness :
    (fieldStr (some " EMAIL_ID ".data) = [] ∨
     lowerS (fieldStr (some " EMAIL_ID ".data)) = "email_id".data) ∧
    clean_email_record "2025-06-01T00:00:00".data
      { email_id := some " EMAIL_ID ".data,
        sender_email := some "a@b.com".data, sender_name := some "A".data,
        subject := some "S".data, body := some "b".data,
        timestamp := some "t0".data, has_attachment := some "TRUE".data,
        thread_id := some "th".data } = none :=
  ⟨by decide,
    (invalid_email_id_rejected "2025-06-01T00:00:00".data
      { email_id := some " EMAIL_ID ".data,
        sender_email := some "a@b.com".data, sender_name := some "A".data,
        subject := some "S".data, body := some "b".data,
        timestamp := some "t0".data, has_attachment := some "TRUE".data,
        thread_id := some "th".data } (by decide)).1⟩

/-- C8 counterexample: an accepted row can leave the output `subject`
empty.  The raw subject `\n` (backslash, n) is non-empty and no
placeholder, but the sanitizer replaces the escaped-newline sequence by a
space and then strips it away, so the validated record carries an empty
subject, contradicting the claim that no field is ever empty. -/
theorem sanitized_subject_can_be_empty :
    clean_email_record "2025-06-01T00:00:00".data
      { email_id := some "7".data, sender_email := some "a@b.com".data,
        sender_name := some "A".data, subject := some "\\n".data,
        body := some "hello".data, timestamp := some "t0".data,
        has_attachment := some "TRUE".data, thread_id := some "th".data } =
      some { email_id := "7".data, sender_email := "a@b.com".data,
             sender_name := "A".data, subject := [],
             body := "hello".data, timestamp := "t0".data,
             has_attachment := true, thread_id := "th".data } := by decide

/-- C8 (amended): every record accepted by the validator has all eight
fields present (by construction of the output shape), with `email_id`,
`sender_email`, `sender_name`, `timestamp` and `thread_id` never empty;
an empty or `@`-less source sender becomes `unknown@domain.com` and an
empty source timestamp becomes the clock reading suffixed with `Z` (hence
non-empty and ending in `Z`).  `subject` and `body` can, however, end up
empty when their normalization erases all content. -/
theorem validated_record_fields_populated (now : List Char) (r : RawInput)
    (c : EmailRecord) (h : clean_email_record now r = some c) :
    c.email_id ≠ [] ∧ c.sender_email ≠ [] ∧ c.sender_name ≠ [] ∧
    c.timestamp ≠ [] ∧ c.thread_id ≠ [] ∧
    ((fieldStrLower r.sender_email = [] ∨
        '@' ∉ fieldStrLower r.sender_email) →
      c.sender_email = "unknown@domain.com".data) ∧
    (fieldStr r.timestamp = [] →
      c.timestamp ≠ [] ∧ c.timestamp.getLast? = some 'Z') := by
  unfold clean_email_record at h
  by_cases hid : fieldStr r.email_id = [] ∨
      lowerS (fieldStr r.email_id) = "email_id".data ∨
      lowerS (fieldStr r.email_id) = "nan".data
  · rw [if_pos hid] at h
    exact absurd h (by simp)
  · rw [if_neg hid] at h
    have hidne : fieldStr r.email_id ≠ [] := fun he => hid (Or.inl he)
    simp only [Option.some.injEq] at h
    subst h
    exact ⟨hidne, cleanSenderEmail_ne_nil _, cleanSenderName_ne_nil _,
      cleanTimestamp_ne_nil _ _, cleanThreadId_ne_nil _ _,
      cleanSenderEmail_default _, cleanTimestamp_default _ _⟩

theorem validated_record_fields_populated_witness :
    clean_email_record "2025-06-02T00:00:00".data
      { email_id := some "5".data, sender_email := some "   ".data,
        sender_name := some "B".data, subject := some "S".data,
        body := some "b".data, timestamp := some [],
        has_attachment := some "no".data, thread_id := some "th5".data } =
      some { email_id := "5".data,
             sender_email := "unknown@domain.com".data,
             sender_name := "B".data, subject := "S".data,
             body := "b".data,
             timestamp := "2025-06-02T00:00:00Z".data,
             has_attachment := false, thread_id := "th5".data } ∧
    ("5".data ≠ [] ∧ "unknown@domain.com".data ≠ [] ∧ "B".data ≠ [] ∧
      "2025-06-02T00:00:00Z".data ≠ [] ∧ "th5".data ≠ [] ∧
      ((fieldStrLower (some "   ".data) = [] ∨
          '@' ∉ fieldStrLower (some "   ".data)) →
        "unknown@domain.com".data = "unknown@domain.com".data) ∧
      (fieldStr (some ([] : List Char)) = [] →
        "2025-06-02T00:00:00Z".data ≠ [] ∧
        "2025-06-02T00:00:00Z".data.getLast? = some 'Z')) :=
  ⟨by decide,
    validated_record_fields_populated "2025-06-02T00:00:00".data
      { email_id := some "5".data, sender_email := some "   ".data,
        sender_name := some "B".data, subject := some "S".data,
        body := some "b".data, timestamp := some [],
        has_attachment := some "no".data, thread_id := some "th5".data }
      { email_id := "5".data,
        sender_email := "unknown@domain.com".data,
        sender_name := "B".data, subject := "S".data,
        body := "b".data,
        timestamp := "2025-06-02T00:00:00Z".data,
        has_attachment := false, thread_id := "th5".data } (by decide)⟩

/-- C9 counterexample: the validator is not a deterministic function of
the raw record alone.  On a record with an empty timestamp the default
embeds the invocation-time clock reading, so two invocations at different
times (modelled by two clock parameters) return different records. -/
theorem validator_output_depends_on_clock :
    clean_email_record "2025-01-01T00:00:00".data
      { email_id := some "3".data, sender_email := some "a@b.com".data,
        sender_name := some "A".data, subject := some "S".data,
        body := some "b".data, timestamp := some [],
        has_attachment := some "TRUE".data, thread_id := some "th".data } ≠
    clean_email_record "2025-01-01T00:00:01".data
      { email_id := some "3".data, sender_email := some "a@b.com".data,
        sender_name := some "A".data, subject := some "S".data,
        body := some "b".data, timestamp := some [],
        has_attachment := some "TRUE".data, thread_id := some "th".data } := by
  decide

/-- C9 (amended): the extraction step is pure, and the validator is a
deterministic two-run-equal function of its input whenever the raw
timestamp is present (non-empty after trimming and not the `timestamp` or
`nan` placeholder); only the timestamp default reads the clock. -/
theorem validator_deterministic_of_timestamp_present
    (now1 now2 : List Char) (r : RawInput)
    (h1 : fieldStr r.timestamp ≠ [])
    (h2 : lowerS (fieldStr r.timestamp) ≠ "timestamp".data)
    (h3 : lowerS (fieldStr r.timestamp) ≠ "nan".data) :
    clean_email_record now1 r = clean_email_record now2 r := by
  have hts : cleanTimestamp now1 r.timestamp =
      cleanTimestamp now2 r.timestamp := by
    unfold cleanTimestamp
    rw [if_neg, if_neg] <;>
      (intro hc; rcases hc with hc | hc | hc;
        exacts [h1 hc, h2 hc, h3 hc])
  unfold clean_email_record
  dsimp only
  split
  · rfl
  · rw [hts]

theorem validator_deterministic_of_timestamp_present_witness :
    (fieldStr (some "t9".data) ≠ [] ∧
     lowerS (fieldStr (some "t9".data)) ≠ "timestamp".data ∧
     lowerS (fieldStr (some "t9".data)) ≠ "nan".data) ∧
    clean_email_record "2025-01-01T00:00:00".data
      { email_id := some "3".data, sender_email := some "a@b.com".data,
        sender_name := some "A".data, subject := some "S".data,
        body := some "b".data, timestamp := some "t9".data,
        has_attachment := some "TRUE".data, thread_id := some "th".data } =
    clean_email_record "2025-01-01T00:00:01".data
      { email_id := some "3".data, sender_email := some "a@b.com".data,
        sender_name := some "A".data, subject := some "S".data,
        body := some "b".data, timestamp := some "t9".data,
        has_attachment := some "TRUE".data, thread_id := some "th".data } :=
  ⟨⟨by decide, by decide, by decide⟩,
    validator_deterministic_of_timestamp_present
      "2025-01-01T00:00:00".data "2025-01-01T00:00:01".data
      { email_id := some "3".data, sender_email := some "a@b.com".data,
        sender_name := some "A".data, subject := some "S".data,
        body := some "b".data, timestamp := some "t9".data,
        has_attachment := some "TRUE".data, thread_id := some "th".data }
      (by decide) (by decide) (by decide)⟩

/-- C10: every record emitted by the full parsing pipeline has an
email id that is a non-empty string of decimal digits: the boundary scan
only captures non-empty digit runs, the extractor copies the captured
identifier verbatim, and the validator trims but never otherwise alters
an accepted identifier. -/
theorem parser_output_email_ids_all_digits
    (decode : String → List Nat → Option (List Char)) (bs : List Nat)
    (now : List Char) (c : EmailRecord)
    (hc : c ∈ load_emails_from_csv decode bs now) :
    c.email_id ≠ [] ∧ ∀ ch ∈ c.email_id, ch.isDigit = true := by
  unfold load_emails_from_csv clean_and_load_emails at hc
  cases hdec : firstDecode decode candidateEncodings bs with
  | none =>
    rw [hdec] at hc
    simp [cleanedEmails] at hc
  | some content =>
    rw [hdec] at hc
    dsimp only at hc
    unfold cleanedEmails at hc
    obtain ⟨inp, hinp, hcl⟩ := List.mem_filterMap.mp hc
    obtain ⟨rec, hrec, rfl⟩ := List.mem_map.mp hinp
    unfold parseEmails at hrec
    obtain ⟨p, hp, hok⟩ := processSegs_records _ rec hrec
    rw [reSplit] at hp
    obtain ⟨hne, hdig⟩ := reSplitFuel_ids _ _ p hp
    have hid := processRow_ok_email_id hok
    rw [← hid] at hne hdig
    exact clean_email_record_digit_id now rec hne hdig c hcl

theorem parser_output_email_ids_all_digits_witness :
    ({ email_id := "7".data, sender_email := "a@b.com".data,
       sender_name := "A".data, subject := "S".data,
       body := "hello".data, timestamp := "t0".data,
       has_attachment := true, thread_id := "th7".data } : EmailRecord) ∈
      load_emails_from_csv
        (fun _ _ => some "hdr\n\"7,a@b.com,A,S,hello,t0,TRUE,th7\"".data)
        [] "2025-06-03T00:00:00".data ∧
    ("7".data ≠ [] ∧ ∀ ch ∈ "7".data, ch.isDigit = true) :=
  ⟨by decide,
    parser_output_email_ids_all_digits
      (fun _ _ => some "hdr\n\"7,a@b.com,A,S,hello,t0,TRUE,th7\"".data)
      [] "2025-06-03T00:00:00".data
      { email_id := "7".data, sender_email := "a@b.com".data,
        sender_name := "A".data, subject := "S".data,
        body := "hello".data, timestamp := "t0".data,
        has_attachment := true, thread_id := "th7".data } (by decide)⟩

end Alfred
